import Mathlib

/-!
Shallow embedding of `crates/crypto/src/manager.rs` (commit-boost-client).

The file embeds the signing-manager registry: `Signer`, `ProxySigner`,
`SigningManager` and their operations. External collaborators (the BLS
primitive `blst`, the tree-hash capability, the chain/domain selector) are
out of scope of the core per the specification; they are modelled as an
abstract `Crypto` record of opaque total functions, so every theorem below
is quantified over all possible behaviours of those collaborators.

`std::collections::HashMap` is modelled as an association list with
insert-replaces-existing-key semantics (`mapInsert`), together with the
no-duplicate-keys well-formedness predicate `mapWF` that every reachable
map satisfies.
-/

namespace CommitBoost

/-- BLS public key (`alloy_rpc_types_beacon::BlsPublicKey`), an opaque
fixed-size value used only for equality and as a map key. -/
abbrev BlsPublicKey := Nat

/-- BLS signature (`alloy_rpc_types_beacon::BlsSignature`), opaque. -/
abbrev BlsSignature := Nat

/-- Secret scalar (`blst::min_pk::SecretKey`), opaque. -/
abbrev SecretKey := Nat

/-- Chain identifier (`cb_common::types::Chain`), used only to select the
signing domain; opaque. -/
abbrev Chain := Nat

/-- The canonical signing root of a message (the value of the
`ObjectTreeHash` capability on it); messages enter the manager only
through this root. -/
abbrev Msg := Nat

/-! ### HashMap model -/

/-- `std::collections::HashMap<BlsPublicKey, V>` modelled as an
association list. -/
abbrev AssocMap (V : Type) := List (BlsPublicKey × V)

/-- `HashMap::get`. -/
def mapGet {V : Type} (m : AssocMap V) (k : BlsPublicKey) : Option V :=
  match m with
  | [] => none
  | (k', v) :: rest => if k' = k then some v else mapGet rest k

/-- `HashMap::insert`: replaces the value if the key is present,
appends a fresh entry otherwise. -/
def mapInsert {V : Type} (m : AssocMap V) (k : BlsPublicKey) (v : V) : AssocMap V :=
  match m with
  | [] => [(k, v)]
  | (k', v') :: rest =>
    if k' = k then (k, v) :: rest else (k', v') :: mapInsert rest k v

/-- `HashMap::contains_key`. -/
def mapContainsKey {V : Type} (m : AssocMap V) (k : BlsPublicKey) : Bool :=
  (mapGet m k).isSome

/-- `HashMap::keys` (collected into a list). -/
def mapKeys {V : Type} (m : AssocMap V) : List BlsPublicKey :=
  m.map Prod.fst

/-- `HashMap::values` (collected into a list). -/
def mapValues {V : Type} (m : AssocMap V) : List V :=
  m.map Prod.snd

/-- Well-formedness of the map model: no duplicate keys. Every map built
from `[]` by `mapInsert` satisfies it. -/
def mapWF {V : Type} (m : AssocMap V) : Prop :=
  (mapKeys m).Nodup

theorem mapGet_insert_self {V : Type} (m : AssocMap V) (k : BlsPublicKey) (v : V) :
    mapGet (mapInsert m k v) k = some v := by
  induction m with
  | nil => simp [mapInsert, mapGet]
  | cons e rest ih =>
    obtain ⟨k', v'⟩ := e
    by_cases h : k' = k <;> simp [mapInsert, mapGet, h, ih]

theorem mapGet_insert_ne {V : Type} (m : AssocMap V) (k k' : BlsPublicKey) (v : V)
    (h : k ≠ k') : mapGet (mapInsert m k v) k' = mapGet m k' := by
  induction m with
  | nil => simp [mapInsert, mapGet, h]
  | cons e rest ih =>
    obtain ⟨k'', v''⟩ := e
    by_cases h2 : k'' = k
    · subst h2
      simp [mapInsert, mapGet, h]
    · simp only [mapInsert, if_neg h2]
      by_cases h3 : k'' = k'
      · simp [mapGet, h3]
      · simp [mapGet, h3, ih]

theorem mem_mapInsert {V : Type} (m : AssocMap V) (k : BlsPublicKey) (v : V)
    (e : BlsPublicKey × V) (he : e ∈ mapInsert m k v) : e ∈ m ∨ e = (k, v) := by
  induction m with
  | nil => simpa [mapInsert] using he
  | cons e' rest ih =>
    obtain ⟨k', v'⟩ := e'
    by_cases h : k' = k
    · simp only [mapInsert, if_pos h, List.mem_cons] at he
      rcases he with h1 | h1
      · right; exact h1
      · left; exact List.mem_cons_of_mem _ h1
    · simp only [mapInsert, if_neg h, List.mem_cons] at he
      rcases he with h1 | h1
      · left; simp [h1]
      · rcases ih h1 with h2 | h2
        · left; exact List.mem_cons_of_mem _ h2
        · right; exact h2

theorem mem_keys_mapInsert {V : Type} (m : AssocMap V) (k : BlsPublicKey) (v : V)
    (k' : BlsPublicKey) (hk : k' ∈ mapKeys (mapInsert m k v)) :
    k' ∈ mapKeys m ∨ k' = k := by
  simp only [mapKeys, List.mem_map] at hk ⊢
  obtain ⟨e, he, hfst⟩ := hk
  rcases mem_mapInsert m k v e he with h1 | h1
  · exact Or.inl ⟨e, h1, hfst⟩
  · subst h1
    exact Or.inr hfst.symm

theorem self_mem_keys_mapInsert {V : Type} (m : AssocMap V) (k : BlsPublicKey) (v : V) :
    k ∈ mapKeys (mapInsert m k v) := by
  induction m with
  | nil => simp [mapInsert, mapKeys]
  | cons e rest ih =>
    obtain ⟨k', v'⟩ := e
    by_cases h : k' = k
    · simp [mapInsert, h, mapKeys]
    · simp only [mapInsert, if_neg h, mapKeys, List.map_cons, List.mem_cons]
      exact Or.inr (by simpa [mapKeys] using ih)

theorem mapWF_insert {V : Type} (m : AssocMap V) (k : BlsPublicKey) (v : V)
    (hWF : mapWF m) : mapWF (mapInsert m k v) := by
  induction m with
  | nil => simp [mapWF, mapInsert, mapKeys]
  | cons e rest ih =>
    obtain ⟨k', v'⟩ := e
    have hWF' : k' ∉ mapKeys rest ∧ mapWF rest := by
      simpa [mapWF, mapKeys, List.nodup_cons] using hWF
    by_cases h : k' = k
    · subst h
      have hgoal : mapWF ((k', v) :: rest) := by
        simp only [mapWF, mapKeys, List.map_cons, List.nodup_cons]
        exact ⟨by simpa [mapKeys] using hWF'.1, by simpa [mapWF, mapKeys] using hWF'.2⟩
      simpa [mapInsert] using hgoal
    · have h1 : k' ∉ mapKeys (mapInsert rest k v) := by
        intro hmem
        rcases mem_keys_mapInsert rest k v k' hmem with h2 | h2
        · exact hWF'.1 h2
        · exact h h2
      have h2 := ih hWF'.2
      simp only [mapWF, mapInsert, if_neg h, mapKeys, List.map_cons, List.nodup_cons]
      exact ⟨by simpa [mapKeys] using h1, by simpa [mapWF, mapKeys] using h2⟩

theorem length_mapInsert_of_mem {V : Type} (m : AssocMap V) (k : BlsPublicKey) (v : V)
    (h : (mapGet m k).isSome) : (mapInsert m k v).length = m.length := by
  induction m with
  | nil => simp [mapGet] at h
  | cons e rest ih =>
    obtain ⟨k', v'⟩ := e
    by_cases h2 : k' = k
    · simp [mapInsert, h2]
    · simp only [mapGet, if_neg h2] at h
      simp [mapInsert, if_neg h2, ih h]

theorem mapGet_eq_some_of_mem {V : Type} (m : AssocMap V) (k : BlsPublicKey) (v : V)
    (hWF : mapWF m) (h : (k, v) ∈ m) : mapGet m k = some v := by
  induction m with
  | nil => simp at h
  | cons e rest ih =>
    obtain ⟨k', v'⟩ := e
    simp only [mapWF, mapKeys, List.map_cons, List.nodup_cons] at hWF
    rcases List.mem_cons.mp h with h1 | h1
    · have hk : k' = k := by rw [Prod.ext_iff] at h1; exact h1.1.symm
      have hv : v' = v := by rw [Prod.ext_iff] at h1; exact h1.2.symm
      simp [mapGet, hk, hv]
    · have hne : k' ≠ k := by
        intro hkk
        exact hWF.1 (hkk ▸ List.mem_map_of_mem Prod.fst h1)
      simp [mapGet, hne, ih hWF.2 h1]

theorem mem_of_mapGet_eq_some {V : Type} (m : AssocMap V) (k : BlsPublicKey) (v : V)
    (h : mapGet m k = some v) : (k, v) ∈ m := by
  induction m with
  | nil => simp [mapGet] at h
  | cons e rest ih =>
    obtain ⟨k', v'⟩ := e
    by_cases h2 : k' = k
    · simp only [mapGet, if_pos h2] at h
      rw [Option.some_inj] at h
      subst h2
      subst h
      exact List.mem_cons_self _ _
    · simp only [mapGet, if_neg h2] at h
      exact List.mem_cons_of_mem _ (ih h)

/-! ### Data types of the core -/

/-- `error::SignError` (the two variants the manager raises). -/
inductive SignError where
  | UnknownConsensusSigner : BlsPublicKey → SignError
  | UnknownProxySigner : BlsPublicKey → SignError
deriving DecidableEq

/-- `types::ProxyDelegation { delegator, proxy }`. -/
structure ProxyDelegation where
  delegator : BlsPublicKey
  proxy : BlsPublicKey
deriving DecidableEq

/-- `types::SignedProxyDelegation { signature, message }`. -/
structure SignedProxyDelegation where
  signature : BlsSignature
  message : ProxyDelegation
deriving DecidableEq

/-! ### External collaborators (out of scope of the core)

The spec declares the BLS primitive, the tree-hash capability and the
chain/domain selector to be external. `Crypto` packages them as opaque
total functions; theorems quantify over an arbitrary `Crypto`. -/

/-- The external cryptographic collaborators:
`skToPk` is `blst` key derivation (`sk_to_pk` composed with
`blst_pubkey_to_alloy`), `signBuilderMessage` is
`signature::sign_builder_message` applied to a message's canonical root,
`skFromBytes` is `blst::min_pk::SecretKey::from_bytes`, and
`hashDelegation` is the `ObjectTreeHash` capability of `ProxyDelegation`. -/
structure Crypto where
  skToPk : SecretKey → BlsPublicKey
  signBuilderMessage : Chain → SecretKey → Msg → BlsSignature
  skFromBytes : List Nat → Option SecretKey
  hashDelegation : ProxyDelegation → Msg

/-- `manager::Signer`: closed enum over key backends; today exactly
`Plain(SecretKey)`. -/
inductive Signer where
  | Plain : SecretKey → Signer
deriving DecidableEq

/-- `Signer::pubkey`: `blst_pubkey_to_alloy(&secret.sk_to_pk())`. -/
def Signer.pubkey (C : Crypto) : Signer → BlsPublicKey
  | .Plain secret => C.skToPk secret

/-- `Signer::sign(chain, msg)`: `sign_builder_message(chain, sk, msg)`;
the message is represented by its canonical root. -/
def Signer.sign (C : Crypto) (chain : Chain) (msg : Msg) : Signer → BlsSignature
  | .Plain sk => C.signBuilderMessage chain sk msg

/-- `Signer::new_from_bytes`: `SecretKey::from_bytes(bytes).unwrap()`.
The `unwrap` panic on invalid bytes is modelled as `none`; a returned
`some` is the constructed signer. -/
def Signer.new_from_bytes (C : Crypto) (bytes : List Nat) : Option Signer :=
  match C.skFromBytes bytes with
  | some secret_key => some (Signer.Plain secret_key)
  | none => none

/-- `manager::ProxySigner { signer, delegation }`. -/
structure ProxySigner where
  signer : Signer
  delegation : SignedProxyDelegation
deriving DecidableEq

/-- `manager::SigningManager { chain, consensus_signers, proxy_signers }`. -/
structure SigningManager where
  chain : Chain
  consensus_signers : AssocMap Signer
  proxy_signers : AssocMap ProxySigner
deriving DecidableEq

namespace SigningManager

/-- `SigningManager::new(chain)`. -/
def new (chain : Chain) : SigningManager :=
  { chain := chain, consensus_signers := [], proxy_signers := [] }

/-- `SigningManager::add_consensus_signer` (takes `&mut self`; returns the
updated manager). -/
def add_consensus_signer (C : Crypto) (m : SigningManager) (signer : Signer) :
    SigningManager :=
  { m with consensus_signers := mapInsert m.consensus_signers (signer.pubkey C) signer }

/-- `SigningManager::add_proxy_signer` (takes `&mut self`; returns the
updated manager). -/
def add_proxy_signer (C : Crypto) (m : SigningManager) (proxy : ProxySigner) :
    SigningManager :=
  { m with proxy_signers := mapInsert m.proxy_signers (proxy.signer.pubkey C) proxy }

/-- `SigningManager::sign_consensus` (takes `&self`: pure). -/
def sign_consensus (C : Crypto) (m : SigningManager) (pubkey : BlsPublicKey)
    (msg : Msg) : Except SignError BlsSignature :=
  match mapGet m.consensus_signers pubkey with
  | none => Except.error (SignError.UnknownConsensusSigner pubkey)
  | some signer => Except.ok (signer.sign C m.chain msg)

/-- `SigningManager::sign_proxy` (takes `&self`: pure). -/
def sign_proxy (C : Crypto) (m : SigningManager) (pubkey : BlsPublicKey)
    (msg : Msg) : Except SignError BlsSignature :=
  match mapGet m.proxy_signers pubkey with
  | none => Except.error (SignError.UnknownProxySigner pubkey)
  | some proxy => Except.ok (proxy.signer.sign C m.chain msg)

/-- `SigningManager::create_proxy` (takes `&mut self`): the fresh random
secret drawn by `Signer::new_random()` is passed in explicitly as
`freshSk` (the randomness oracle). Returns the result together with the
updated manager; on the early-return error path the manager is the
input one, as in the source. -/
def create_proxy (C : Crypto) (freshSk : SecretKey) (m : SigningManager)
    (delegator : BlsPublicKey) :
    Except SignError SignedProxyDelegation × SigningManager :=
  let signer := Signer.Plain freshSk
  let message : ProxyDelegation := { delegator := delegator, proxy := signer.pubkey C }
  match m.sign_consensus C delegator (C.hashDelegation message) with
  | Except.error e => (Except.error e, m)
  | Except.ok signature =>
    let signed_delegation : SignedProxyDelegation :=
      { signature := signature, message := message }
    let proxy_signer : ProxySigner := { signer := signer, delegation := signed_delegation }
    (Except.ok signed_delegation, m.add_proxy_signer C proxy_signer)

/-- `SigningManager::consensus_pubkeys` (`&self`). -/
def consensus_pubkeys (m : SigningManager) : List BlsPublicKey :=
  mapKeys m.consensus_signers

/-- `SigningManager::proxy_pubkeys` (`&self`). -/
def proxy_pubkeys (m : SigningManager) : List BlsPublicKey :=
  mapKeys m.proxy_signers

/-- `SigningManager::delegations` (`&self`):
`self.proxy_signers.values().map(|s| s.delegation).collect()`. -/
def delegations (m : SigningManager) : List SignedProxyDelegation :=
  (mapValues m.proxy_signers).map ProxySigner.delegation

/-- `SigningManager::has_consensus` (`&self`). -/
def has_consensus (m : SigningManager) (pubkey : BlsPublicKey) : Bool :=
  mapContainsKey m.consensus_signers pubkey

/-- `SigningManager::has_proxy` (`&self`). -/
def has_proxy (m : SigningManager) (pubkey : BlsPublicKey) : Bool :=
  mapContainsKey m.proxy_signers pubkey

/-- `SigningManager::get_delegation` (`&self`). -/
def get_delegation (m : SigningManager) (proxy_pubkey : BlsPublicKey) :
    Except SignError SignedProxyDelegation :=
  match mapGet m.proxy_signers proxy_pubkey with
  | none => Except.error (SignError.UnknownProxySigner proxy_pubkey)
  | some signer => Except.ok signer.delegation

end SigningManager

/-! ### The manager's operations as state transitions

`MgrOp` enumerates every public method of `SigningManager`; `MgrOp.run`
gives the state after the call. Methods taking `&self` cannot write the
state (their bodies above are pure functions of it), so `run` leaves the
manager unchanged for them; `&mut self` methods step to the state
returned by their embedding. -/

/-- One public method call on the manager, with its arguments
(`createProxy` additionally carries the random secret drawn inside). -/
inductive MgrOp where
  | addConsensusSigner (s : Signer)
  | addProxySigner (p : ProxySigner)
  | createProxy (freshSk : SecretKey) (delegator : BlsPublicKey)
  | signConsensus (pk : BlsPublicKey) (msg : Msg)
  | signProxy (pk : BlsPublicKey) (msg : Msg)
  | consensusPubkeys
  | proxyPubkeys
  | delegationsCall
  | hasConsensus (pk : BlsPublicKey)
  | hasProxy (pk : BlsPublicKey)
  | getDelegation (pk : BlsPublicKey)

/-- The manager state after running one method call. -/
def MgrOp.run (C : Crypto) (m : SigningManager) : MgrOp → SigningManager
  | .addConsensusSigner s => m.add_consensus_signer C s
  | .addProxySigner p => m.add_proxy_signer C p
  | .createProxy freshSk delegator => (m.create_proxy C freshSk delegator).2
  | .signConsensus _ _ => m
  | .signProxy _ _ => m
  | .consensusPubkeys => m
  | .proxyPubkeys => m
  | .delegationsCall => m
  | .hasConsensus _ => m
  | .hasProxy _ => m
  | .getDelegation _ => m

/-! ### Invariants -/

/-- Both maps are well-formed (no duplicate keys) — true of every
reachable manager. -/
def SigningManager.WF (m : SigningManager) : Prop :=
  mapWF m.consensus_signers ∧ mapWF m.proxy_signers

/-- Key/value agreement: every entry of either map is stored under the
public key of the signer it holds. -/
def KeyInv (C : Crypto) (m : SigningManager) : Prop :=
  (∀ e ∈ m.proxy_signers, (Prod.snd e).signer.pubkey C = Prod.fst e) ∧
  (∀ e ∈ m.consensus_signers, (Prod.snd e).pubkey C = Prod.fst e)

/-- Delegation/key agreement: every stored `ProxySigner`'s delegation
names exactly the proxy key it wraps. -/
def DelegationInv (C : Crypto) (m : SigningManager) : Prop :=
  ∀ e ∈ m.proxy_signers, (Prod.snd e).delegation.message.proxy = (Prod.snd e).signer.pubkey C

/-- An operation respects the delegation invariant when any `ProxySigner`
it hands to `add_proxy_signer` itself satisfies it; all other operations
respect it vacuously. -/
def OpRespectsDelegation (C : Crypto) : MgrOp → Prop
  | .addProxySigner p => p.delegation.message.proxy = p.signer.pubkey C
  | _ => True

instance (C : Crypto) (m : SigningManager) : Decidable (KeyInv C m) :=
  inferInstanceAs (Decidable (_ ∧ _))

instance (C : Crypto) (m : SigningManager) : Decidable (DelegationInv C m) :=
  inferInstanceAs
    (Decidable (∀ e ∈ m.proxy_signers,
      (Prod.snd e).delegation.message.proxy = (Prod.snd e).signer.pubkey C))

instance {V : Type} (m : AssocMap V) : Decidable (mapWF m) :=
  inferInstanceAs (Decidable (mapKeys m).Nodup)

instance (m : SigningManager) : Decidable m.WF :=
  inferInstanceAs (Decidable (mapWF _ ∧ mapWF _))

instance (C : Crypto) (op : MgrOp) : Decidable (OpRespectsDelegation C op) :=
  match op with
  | .addConsensusSigner _ => inferInstanceAs (Decidable True)
  | .addProxySigner p =>
    inferInstanceAs (Decidable (p.delegation.message.proxy = p.signer.pubkey C))
  | .createProxy _ _ => inferInstanceAs (Decidable True)
  | .signConsensus _ _ => inferInstanceAs (Decidable True)
  | .signProxy _ _ => inferInstanceAs (Decidable True)
  | .consensusPubkeys => inferInstanceAs (Decidable True)
  | .proxyPubkeys => inferInstanceAs (Decidable True)
  | .delegationsCall => inferInstanceAs (Decidable True)
  | .hasConsensus _ => inferInstanceAs (Decidable True)
  | .hasProxy _ => inferInstanceAs (Decidable True)
  | .getDelegation _ => inferInstanceAs (Decidable True)

/-! ### Helper lemmas -/

theorem forall_entries_mapInsert {V : Type} (P : BlsPublicKey × V → Prop)
    (m : AssocMap V) (k : BlsPublicKey) (v : V)
    (hm : ∀ e ∈ m, P e) (hv : P (k, v)) : ∀ e ∈ mapInsert m k v, P e :=
  fun e he => (mem_mapInsert m k v e he).elim (hm e) (fun h => h ▸ hv)

/-- The state after `create_proxy`: unchanged on the error path, or the
insertion of the freshly built `ProxySigner` on the success path. -/
theorem create_proxy_state (C : Crypto) (freshSk : SecretKey) (m : SigningManager)
    (delegator : BlsPublicKey) :
    (m.create_proxy C freshSk delegator).2 = m ∨
    ∃ sig : BlsSignature, (m.create_proxy C freshSk delegator).2 =
      m.add_proxy_signer C
        { signer := Signer.Plain freshSk,
          delegation :=
            { signature := sig,
              message :=
                { delegator := delegator,
                  proxy := (Signer.Plain freshSk).pubkey C } } } := by
  unfold SigningManager.create_proxy
  cases hm : m.sign_consensus C delegator
      (C.hashDelegation
        { delegator := delegator, proxy := (Signer.Plain freshSk).pubkey C }) with
  | error e => left; simp [hm]
  | ok sig => right; exact ⟨sig, by simp [hm]⟩

/-! ### Concrete instantiations (used only by witness theorems) -/

/-- A concrete instance of the external collaborators, used to evaluate
the universally quantified theorems at computable inputs. -/
def cW : Crypto :=
  { skToPk := fun sk => sk
    signBuilderMessage := fun chain sk msg => chain * 1000000 + sk * 1000 + msg
    skFromBytes := List.head?
    hashDelegation := fun pd => pd.delegator * 1000 + pd.proxy }

/-- A concrete manager holding one consensus signer under key 5. -/
def mW : SigningManager :=
  (SigningManager.new 0).add_consensus_signer cW (Signer.Plain 5)

/-- A `ProxySigner` whose delegation names a proxy key (1) different from
the key it wraps (0): `add_proxy_signer` accepts it unchecked. -/
def badProxy : ProxySigner :=
  { signer := Signer.Plain 0,
    delegation := { signature := 0, message := { delegator := 0, proxy := 1 } } }

/-- A `ProxySigner` whose delegation names exactly the key it wraps. -/
def goodProxy : ProxySigner :=
  { signer := Signer.Plain 4,
    delegation := { signature := 0, message := { delegator := 9, proxy := 4 } } }

/-- Two proxy entries used to build equal-content managers with
different insertion orders. -/
def pA : ProxySigner :=
  { signer := Signer.Plain 0,
    delegation := { signature := 0, message := { delegator := 5, proxy := 0 } } }

def pB : ProxySigner :=
  { signer := Signer.Plain 1,
    delegation := { signature := 1, message := { delegator := 5, proxy := 1 } } }

/-- Manager with proxy entries inserted in the order `pA`, `pB`. -/
def mP1 : SigningManager :=
  { chain := 0, consensus_signers := [], proxy_signers := [(0, pA), (1, pB)] }

/-- Manager with the same proxy entries in the opposite order. -/
def mP2 : SigningManager :=
  { chain := 0, consensus_signers := [], proxy_signers := [(1, pB), (0, pA)] }

theorem mP1_mP2_same_get : ∀ k, mapGet mP1.proxy_signers k = mapGet mP2.proxy_signers k := by
  intro k
  by_cases h0 : (0 : BlsPublicKey) = k
  · subst h0; decide
  · by_cases h1 : (1 : BlsPublicKey) = k
    · subst h1; decide
    · simp [mP1, mP2, mapGet, h0, h1]

/-! ### Claim theorems -/

/-- C1: if the manager's consensus map has an entry for identity `D`,
then `create_proxy D` (with any fresh random secret) returns `Ok` of a
`SignedProxyDelegation` whose `message.delegator` is `D`, and on the
resulting manager `has_proxy` of the returned proxy key is true and
`get_delegation` of that key returns `Ok` of the same delegation. -/
theorem create_proxy_spec (C : Crypto) (m : SigningManager) (D : BlsPublicKey)
    (freshSk : SecretKey) (s : Signer)
    (h : mapGet m.consensus_signers D = some s) :
    ∃ d : SignedProxyDelegation,
      (m.create_proxy C freshSk D).1 = Except.ok d ∧
      d.message.delegator = D ∧
      (m.create_proxy C freshSk D).2.has_proxy d.message.proxy = true ∧
      (m.create_proxy C freshSk D).2.get_delegation d.message.proxy = Except.ok d := by
  have hsc : m.sign_consensus C D
      (C.hashDelegation { delegator := D, proxy := (Signer.Plain freshSk).pubkey C }) =
      Except.ok (s.sign C m.chain
        (C.hashDelegation { delegator := D, proxy := (Signer.Plain freshSk).pubkey C })) := by
    unfold SigningManager.sign_consensus
    rw [h]
  have hcp : m.create_proxy C freshSk D =
      (Except.ok
        ({ signature := s.sign C m.chain
             (C.hashDelegation { delegator := D, proxy := (Signer.Plain freshSk).pubkey C }),
           message := { delegator := D, proxy := (Signer.Plain freshSk).pubkey C } } :
          SignedProxyDelegation),
       m.add_proxy_signer C
         { signer := Signer.Plain freshSk,
           delegation :=
             { signature := s.sign C m.chain
                 (C.hashDelegation
                   { delegator := D, proxy := (Signer.Plain freshSk).pubkey C }),
               message := { delegator := D, proxy := (Signer.Plain freshSk).pubkey C } } }) := by
    unfold SigningManager.create_proxy
    simp only [hsc]
  refine ⟨_, by rw [hcp], rfl, ?_, ?_⟩
  · rw [hcp]
    simp only [SigningManager.has_proxy, SigningManager.add_proxy_signer, mapContainsKey]
    rw [mapGet_insert_self]
    rfl
  · rw [hcp]
    simp only [SigningManager.get_delegation, SigningManager.add_proxy_signer]
    rw [mapGet_insert_self]

/-- C1 witness: the theorem evaluated on a concrete manager holding the
consensus key 5, with fresh secret 7. -/
theorem create_proxy_spec_witness :
    ∃ d : SignedProxyDelegation,
      (mW.create_proxy cW 7 5).1 = Except.ok d ∧
      d.message.delegator = 5 ∧
      (mW.create_proxy cW 7 5).2.has_proxy d.message.proxy = true ∧
      (mW.create_proxy cW 7 5).2.get_delegation d.message.proxy = Except.ok d :=
  create_proxy_spec cW mW 5 7 (Signer.Plain 5) (by decide)

/-- C2: for an identity `P` absent from the consensus map,
`sign_consensus P _` returns `UnknownConsensusSigner P`, `create_proxy P`
returns the same error, and neither call changes the manager (the failing
`create_proxy` hands back the input state, and `sign_consensus` is a
read-only step of the transition function). -/
theorem unknown_consensus_spec (C : Crypto) (m : SigningManager) (P : BlsPublicKey)
    (msg : Msg) (freshSk : SecretKey)
    (h : mapGet m.consensus_signers P = none) :
    m.sign_consensus C P msg = Except.error (SignError.UnknownConsensusSigner P) ∧
    (m.create_proxy C freshSk P).1 = Except.error (SignError.UnknownConsensusSigner P) ∧
    (m.create_proxy C freshSk P).2 = m ∧
    MgrOp.run C m (MgrOp.signConsensus P msg) = m := by
  have herr : ∀ msg2 : Msg,
      m.sign_consensus C P msg2 = Except.error (SignError.UnknownConsensusSigner P) := by
    intro msg2
    unfold SigningManager.sign_consensus
    rw [h]
  have hcp : m.create_proxy C freshSk P =
      (Except.error (SignError.UnknownConsensusSigner P), m) := by
    unfold SigningManager.create_proxy
    simp only [herr]
  exact ⟨herr msg, by rw [hcp], by rw [hcp], rfl⟩

/-- C2 witness: key 99 is not in the concrete manager's consensus map. -/
theorem unknown_consensus_spec_witness :
    mW.sign_consensus cW 99 1 = Except.error (SignError.UnknownConsensusSigner 99) ∧
    (mW.create_proxy cW 2 99).1 = Except.error (SignError.UnknownConsensusSigner 99) ∧
    (mW.create_proxy cW 2 99).2 = mW ∧
    MgrOp.run cW mW (MgrOp.signConsensus 99 1) = mW :=
  unknown_consensus_spec cW mW 99 1 2 (by decide)

/-- C3: for an identity `P` absent from the proxy map, `sign_proxy P _`
and `get_delegation P` both return `UnknownProxySigner P`, and neither
changes the manager (both are read-only steps of the transition
function). -/
theorem unknown_proxy_spec (C : Crypto) (m : SigningManager) (P : BlsPublicKey)
    (msg : Msg) (h : mapGet m.proxy_signers P = none) :
    m.sign_proxy C P msg = Except.error (SignError.UnknownProxySigner P) ∧
    m.get_delegation P = Except.error (SignError.UnknownProxySigner P) ∧
    MgrOp.run C m (MgrOp.signProxy P msg) = m ∧
    MgrOp.run C m (MgrOp.getDelegation P) = m := by
  refine ⟨?_, ?_, rfl, rfl⟩
  · unfold SigningManager.sign_proxy
    rw [h]
  · unfold SigningManager.get_delegation
    rw [h]

/-- C3 witness: key 99 is not in the concrete manager's proxy map. -/
theorem unknown_proxy_spec_witness :
    mW.sign_proxy cW 99 1 = Except.error (SignError.UnknownProxySigner 99) ∧
    mW.get_delegation 99 = Except.error (SignError.UnknownProxySigner 99) ∧
    MgrOp.run cW mW (MgrOp.signProxy 99 1) = mW ∧
    MgrOp.run cW mW (MgrOp.getDelegation 99) = mW :=
  unknown_proxy_spec cW mW 99 1 (by decide)

theorem keyInv_add_consensus (C : Crypto) (m : SigningManager) (s : Signer)
    (hInv : KeyInv C m) : KeyInv C (m.add_consensus_signer C s) :=
  ⟨hInv.1, forall_entries_mapInsert _ _ _ _ hInv.2 rfl⟩

theorem keyInv_add_proxy (C : Crypto) (m : SigningManager) (p : ProxySigner)
    (hInv : KeyInv C m) : KeyInv C (m.add_proxy_signer C p) :=
  ⟨forall_entries_mapInsert _ _ _ _ hInv.1 rfl, hInv.2⟩

/-- C4: key/value agreement — each map stores every signer under exactly
that signer's public key — holds for a fresh manager and is preserved by
every operation, for all arguments. -/
theorem key_invariant (C : Crypto) :
    (∀ chain, KeyInv C (SigningManager.new chain)) ∧
    (∀ (m : SigningManager) (op : MgrOp), KeyInv C m → KeyInv C (MgrOp.run C m op)) := by
  refine ⟨fun chain => ⟨?_, ?_⟩, fun m op hInv => ?_⟩
  · intro e he; exact absurd he (List.not_mem_nil e)
  · intro e he; exact absurd he (List.not_mem_nil e)
  · cases op with
    | addConsensusSigner s => exact keyInv_add_consensus C m s hInv
    | addProxySigner p => exact keyInv_add_proxy C m p hInv
    | createProxy freshSk delegator =>
      show KeyInv C (m.create_proxy C freshSk delegator).2
      rcases create_proxy_state C freshSk m delegator with hst | ⟨sig, hst⟩
      · rw [hst]; exact hInv
      · rw [hst]; exact keyInv_add_proxy C m _ hInv
    | signConsensus pk msg => exact hInv
    | signProxy pk msg => exact hInv
    | consensusPubkeys => exact hInv
    | proxyPubkeys => exact hInv
    | delegationsCall => exact hInv
    | hasConsensus pk => exact hInv
    | hasProxy pk => exact hInv
    | getDelegation pk => exact hInv

/-- C4 witness: the preservation part applied to the concrete manager and
a concrete registration. -/
theorem key_invariant_witness :
    KeyInv cW (MgrOp.run cW mW (MgrOp.addConsensusSigner (Signer.Plain 2))) :=
  (key_invariant cW).2 mW (MgrOp.addConsensusSigner (Signer.Plain 2)) (by decide)

/-- C5 counterexample: `add_proxy_signer` performs no validation, so a
`ProxySigner` wrapping key 0 but whose delegation names proxy key 1 is
stored as-is, breaking the claimed invariant on a manager that satisfied
it. -/
theorem delegation_inv_counterexample :
    DelegationInv cW (SigningManager.new 0) ∧
    ¬ DelegationInv cW
        (MgrOp.run cW (SigningManager.new 0) (MgrOp.addProxySigner badProxy)) := by
  decide

/-- C5 (amended): the invariant `delegation.message.proxy = signer.pubkey()`
holds for a fresh manager and is preserved by every operation, provided
any `ProxySigner` passed to `add_proxy_signer` itself satisfies it
(`create_proxy` and all other operations preserve it unconditionally). -/
theorem delegation_invariant (C : Crypto) :
    (∀ chain, DelegationInv C (SigningManager.new chain)) ∧
    (∀ (m : SigningManager) (op : MgrOp), DelegationInv C m →
      OpRespectsDelegation C op → DelegationInv C (MgrOp.run C m op)) := by
  refine ⟨fun chain e he => absurd he (List.not_mem_nil e), fun m op hInv hop => ?_⟩
  cases op with
  | addConsensusSigner s => exact hInv
  | addProxySigner p => exact forall_entries_mapInsert _ _ _ _ hInv hop
  | createProxy freshSk delegator =>
    show DelegationInv C (m.create_proxy C freshSk delegator).2
    rcases create_proxy_state C freshSk m delegator with hst | ⟨sig, hst⟩
    · rw [hst]; exact hInv
    · rw [hst]; exact forall_entries_mapInsert _ _ _ _ hInv rfl
  | signConsensus pk msg => exact hInv
  | signProxy pk msg => exact hInv
  | consensusPubkeys => exact hInv
  | proxyPubkeys => exact hInv
  | delegationsCall => exact hInv
  | hasConsensus pk => exact hInv
  | hasProxy pk => exact hInv
  | getDelegation pk => exact hInv

/-- C5 witness: the amended preservation applied to a fresh manager and a
well-formed `ProxySigner`. -/
theorem delegation_invariant_witness :
    DelegationInv cW
      (MgrOp.run cW (SigningManager.new 0) (MgrOp.addProxySigner goodProxy)) :=
  (delegation_invariant cW).2 (SigningManager.new 0) (MgrOp.addProxySigner goodProxy)
    (by decide) (by decide)

/-- C6: `delegations()` lists exactly the delegation of each stored proxy
signer — as many entries as proxy entries, containing each stored
delegation, containing nothing else — and two managers whose proxy maps
have the same lookup function (e.g. built by different insertion orders)
return the same delegations up to permutation. -/
theorem delegations_spec (m m2 : SigningManager)
    (hWF : mapWF m.proxy_signers) (hWF2 : mapWF m2.proxy_signers)
    (hsame : ∀ k, mapGet m.proxy_signers k = mapGet m2.proxy_signers k) :
    m.delegations.length = m.proxy_signers.length ∧
    (∀ (k : BlsPublicKey) (ps : ProxySigner),
      mapGet m.proxy_signers k = some ps → ps.delegation ∈ m.delegations) ∧
    (∀ d ∈ m.delegations, ∃ (k : BlsPublicKey) (ps : ProxySigner),
      mapGet m.proxy_signers k = some ps ∧ ps.delegation = d) ∧
    m.delegations.Perm m2.delegations := by
  refine ⟨?_, ?_, ?_, ?_⟩
  · simp [SigningManager.delegations, mapValues]
  · intro k ps hget
    have hmem := mem_of_mapGet_eq_some _ _ _ hget
    simp only [SigningManager.delegations, mapValues, List.map_map, List.mem_map]
    exact ⟨(k, ps), hmem, rfl⟩
  · intro d hd
    simp only [SigningManager.delegations, mapValues, List.map_map, List.mem_map] at hd
    obtain ⟨e, he, hde⟩ := hd
    exact ⟨e.1, e.2, mapGet_eq_some_of_mem _ _ _ hWF he, hde⟩
  · have hnd1 : m.proxy_signers.Nodup := List.Nodup.of_map Prod.fst hWF
    have hnd2 : m2.proxy_signers.Nodup := List.Nodup.of_map Prod.fst hWF2
    have hperm : m.proxy_signers.Perm m2.proxy_signers := by
      rw [List.perm_ext_iff_of_nodup hnd1 hnd2]
      intro e
      constructor
      · intro he
        exact mem_of_mapGet_eq_some _ _ _
          ((hsame e.1) ▸ mapGet_eq_some_of_mem _ _ _ hWF he)
      · intro he
        exact mem_of_mapGet_eq_some _ _ _
          ((hsame e.1).symm ▸ mapGet_eq_some_of_mem _ _ _ hWF2 he)
    show ((m.proxy_signers.map Prod.snd).map ProxySigner.delegation).Perm
        ((m2.proxy_signers.map Prod.snd).map ProxySigner.delegation)
    exact (hperm.map Prod.snd).map ProxySigner.delegation

/-- C6 witness: two concrete managers holding the same two proxy entries
in opposite insertion orders. -/
theorem delegations_spec_witness :
    mP1.delegations.length = mP1.proxy_signers.length ∧
    (∀ (k : BlsPublicKey) (ps : ProxySigner),
      mapGet mP1.proxy_signers k = some ps → ps.delegation ∈ mP1.delegations) ∧
    (∀ d ∈ mP1.delegations, ∃ (k : BlsPublicKey) (ps : ProxySigner),
      mapGet mP1.proxy_signers k = some ps ∧ ps.delegation = d) ∧
    mP1.delegations.Perm mP2.delegations :=
  delegations_spec mP1 mP2 (by decide) (by decide) mP1_mP2_same_get

/-- C7: registering two signers with the same public key leaves exactly
one entry under that key, holding the later signer, and the map does not
grow between the first and the second registration. -/
theorem add_consensus_idempotent (C : Crypto) (m : SigningManager) (s1 s2 : Signer)
    (hWF : mapWF m.consensus_signers) (hpk : s1.pubkey C = s2.pubkey C) :
    mapGet ((m.add_consensus_signer C s1).add_consensus_signer C s2).consensus_signers
      (s1.pubkey C) = some s2 ∧
    List.count (s1.pubkey C)
      (mapKeys ((m.add_consensus_signer C s1).add_consensus_signer C
        s2).consensus_signers) = 1 ∧
    ((m.add_consensus_signer C s1).add_consensus_signer C s2).consensus_signers.length =
      (m.add_consensus_signer C s1).consensus_signers.length := by
  have hmm : ((m.add_consensus_signer C s1).add_consensus_signer C s2).consensus_signers =
      mapInsert (mapInsert m.consensus_signers (s1.pubkey C) s1) (s1.pubkey C) s2 := by
    show mapInsert (mapInsert m.consensus_signers (s1.pubkey C) s1) (s2.pubkey C) s2 = _
    rw [hpk]
  refine ⟨?_, ?_, ?_⟩
  · rw [hmm, mapGet_insert_self]
  · rw [hmm]
    have hWF2 : mapWF (mapInsert (mapInsert m.consensus_signers (s1.pubkey C) s1)
        (s1.pubkey C) s2) :=
      mapWF_insert _ _ _ (mapWF_insert _ _ _ hWF)
    exact List.count_eq_one_of_mem hWF2 (self_mem_keys_mapInsert _ _ _)
  · rw [hmm]
    show (mapInsert (mapInsert m.consensus_signers (s1.pubkey C) s1)
        (s1.pubkey C) s2).length =
      (mapInsert m.consensus_signers (s1.pubkey C) s1).length
    exact length_mapInsert_of_mem _ _ _ (by rw [mapGet_insert_self]; rfl)

/-- C7 witness: registering the signer of secret 7 twice on the concrete
manager. -/
theorem add_consensus_idempotent_witness :
    mapGet ((mW.add_consensus_signer cW (Signer.Plain 7)).add_consensus_signer cW
      (Signer.Plain 7)).consensus_signers ((Signer.Plain 7).pubkey cW) =
      some (Signer.Plain 7) ∧
    List.count ((Signer.Plain 7).pubkey cW)
      (mapKeys ((mW.add_consensus_signer cW (Signer.Plain 7)).add_consensus_signer cW
        (Signer.Plain 7)).consensus_signers) = 1 ∧
    ((mW.add_consensus_signer cW (Signer.Plain 7)).add_consensus_signer cW
      (Signer.Plain 7)).consensus_signers.length =
      (mW.add_consensus_signer cW (Signer.Plain 7)).consensus_signers.length :=
  add_consensus_idempotent cW mW (Signer.Plain 7) (Signer.Plain 7) (by decide) rfl

/-- C8: `new_from_bytes` returns the signer backed by the decoded secret
whenever the backend accepts the byte string, and fails (the modelled
`unwrap` panic) rather than returning a signer whenever the backend
rejects it; under a valid encoding the failure branch is unreachable. -/
theorem new_from_bytes_spec (C : Crypto) (bytes : List Nat) :
    (∀ sk : SecretKey, C.skFromBytes bytes = some sk →
      Signer.new_from_bytes C bytes = some (Signer.Plain sk)) ∧
    (C.skFromBytes bytes = none → Signer.new_from_bytes C bytes = none) := by
  constructor
  · intro sk h
    unfold Signer.new_from_bytes
    rw [h]
  · intro h
    unfold Signer.new_from_bytes
    rw [h]

/-- C8 witness: with the concrete backend (decode = first byte),
`[3, 4]` yields the signer of secret 3 and `[]` is rejected. -/
theorem new_from_bytes_spec_witness :
    Signer.new_from_bytes cW [3, 4] = some (Signer.Plain 3) ∧
    Signer.new_from_bytes cW [] = none :=
  ⟨(new_from_bytes_spec cW [3, 4]).1 3 rfl, (new_from_bytes_spec cW []).2 rfl⟩

/-- C9: the eight query/signing operations taking `&self` are read-only:
as state transitions they leave the manager — chain and both maps —
exactly as it was. (Their results are values of the pure embedding, so a
list returned before a later mutation is a snapshot by construction.) -/
theorem read_only_spec (C : Crypto) (m : SigningManager) (pk : BlsPublicKey) (msg : Msg) :
    MgrOp.run C m (MgrOp.signConsensus pk msg) = m ∧
    MgrOp.run C m (MgrOp.signProxy pk msg) = m ∧
    MgrOp.run C m MgrOp.consensusPubkeys = m ∧
    MgrOp.run C m MgrOp.proxyPubkeys = m ∧
    MgrOp.run C m MgrOp.delegationsCall = m ∧
    MgrOp.run C m (MgrOp.hasConsensus pk) = m ∧
    MgrOp.run C m (MgrOp.hasProxy pk) = m ∧
    MgrOp.run C m (MgrOp.getDelegation pk) = m :=
  ⟨rfl, rfl, rfl, rfl, rfl, rfl, rfl, rfl⟩

/-- C10: `add_consensus_signer` touches only the consensus map;
`add_proxy_signer` and `create_proxy` touch only the proxy map; no
operation ever changes the chain set at construction. -/
theorem frame_spec (C : Crypto) (m : SigningManager) (s : Signer) (p : ProxySigner)
    (freshSk : SecretKey) (delegator : BlsPublicKey) :
    (m.add_consensus_signer C s).proxy_signers = m.proxy_signers ∧
    (m.add_consensus_signer C s).chain = m.chain ∧
    (m.add_proxy_signer C p).consensus_signers = m.consensus_signers ∧
    (m.add_proxy_signer C p).chain = m.chain ∧
    (m.create_proxy C freshSk delegator).2.consensus_signers = m.consensus_signers ∧
    (m.create_proxy C freshSk delegator).2.chain = m.chain ∧
    (∀ op : MgrOp, (MgrOp.run C m op).chain = m.chain) := by
  have hcp : (m.create_proxy C freshSk delegator).2.consensus_signers =
      m.consensus_signers ∧ (m.create_proxy C freshSk delegator).2.chain = m.chain := by
    rcases create_proxy_state C freshSk m delegator with hst | ⟨sig, hst⟩ <;>
      (rw [hst]; exact ⟨rfl, rfl⟩)
  refine ⟨rfl, rfl, rfl, rfl, hcp.1, hcp.2, ?_⟩
  intro op
  cases op with
  | addConsensusSigner s2 => rfl
  | addProxySigner p2 => rfl
  | createProxy sk2 d2 =>
    show (m.create_proxy C sk2 d2).2.chain = m.chain
    rcases create_proxy_state C sk2 m d2 with hst | ⟨sig, hst⟩ <;> (rw [hst]; try rfl)
  | signConsensus pk2 msg2 => rfl
  | signProxy pk2 msg2 => rfl
  | consensusPubkeys => rfl
  | proxyPubkeys => rfl
  | delegationsCall => rfl
  | hasConsensus pk2 => rfl
  | hasProxy pk2 => rfl
  | getDelegation pk2 => rfl

end CommitBoost
